import Mathlib

/-!
Shallow embedding of `src/src_clean/model_clean.py` (neural sequence-transduction
models) and proofs about it.  Tensors are modelled as functions from index
naturals to reals (sizes carried separately where an assertion in the source
reads them); learned components that live outside this excerpt (`StackedLSTM`,
`Attention`, the embedding tables) are abstracted as function parameters, as the
specification describes them only through their calling contracts.  The reserved
vocabulary indices (`PAD_IDX`, `STEP_IDX`, imported from `dataloader_clean`,
which is not part of this excerpt) are modelled as parameters, since the
specification fixes no literal values for them.
-/

/-- EPSILON from model_clean.py line 15: the additive probability floor 1e-7. -/
noncomputable def EPSILON : ℝ := 1 / 10 ^ 7

/-- Embedding of `torch.nn.functional.softmax` along a length-`n` axis. -/
noncomputable def softmax (n : ℕ) (f : ℕ → ℝ) (v : ℕ) : ℝ :=
  Real.exp (f v) / ∑ u in Finset.range n, Real.exp (f u)

/-- Embedding of `torch.logsumexp` along a length-`n` axis. -/
noncomputable def logsumexp (n : ℕ) (f : ℕ → ℝ) : ℝ :=
  Real.log (∑ u in Finset.range n, Real.exp (f u))

/-- Embedding of `torch.nn.functional.log_softmax` along a length-`n` axis. -/
noncomputable def log_softmax (n : ℕ) (f : ℕ → ℝ) (v : ℕ) : ℝ :=
  f v - logsumexp n f

/-- One iteration of the pointer-advance scan in `HardMonoTransducer.decode`
(model_clean.py lines 340-342): the pointer of example `j` is incremented
exactly when the target symbol currently being fed equals the reserved step
symbol.  Symbols are integers; `stepIdx` stands for `STEP_IDX`. -/
def stepAdvance (stepIdx : ℤ) (p : ℕ) (sym : ℤ) : ℕ :=
  if sym = stepIdx then p + 1 else p

/-- The per-example pointer trace of `HardMonoTransducer.decode` (lines
327-347): starting from pointer value `p`, the list of pointer values actually
used by `decode_step` at each loop iteration, one per fed target symbol.  The
in-place updates of the (1, batch) tensor `attn_pos` are per-example
independent, so the scan is modelled per example. -/
def pointerTrace (stepIdx : ℤ) (p : ℕ) : List ℤ → List ℕ
  | [] => []
  | s :: rest => stepAdvance stepIdx p s :: pointerTrace stepIdx (stepAdvance stepIdx p s) rest

/-- Pointer value used by `HardMonoTransducer.decode` at loop iteration `idx`
(the iteration that feeds target symbol `idx` and produces the prediction for
target position `idx + 1`).  The pointer starts at 0 (line 333) and the loop
runs over the first `trg.length - 1` symbols (line 339). -/
def pointerUsed (stepIdx : ℤ) (trg : List ℤ) (idx : ℕ) : ℕ :=
  (pointerTrace stepIdx 0 (trg.take (trg.length - 1))).getD idx 0

theorem pointerTrace_length (stepIdx : ℤ) (p : ℕ) (xs : List ℤ) :
    (pointerTrace stepIdx p xs).length = xs.length := by
  induction xs generalizing p with
  | nil => rfl
  | cons y ys ih => simp [pointerTrace, ih]

theorem pointerTrace_getD (stepIdx : ℤ) (xs : List ℤ) (p i : ℕ) (h : i < xs.length) :
    (pointerTrace stepIdx p xs).getD i 0 = p + (xs.take (i + 1)).count stepIdx := by
  induction xs generalizing p i with
  | nil => simp at h
  | cons y ys ih =>
    cases i with
    | zero =>
      simp [pointerTrace, stepAdvance, List.count_cons]
      by_cases hy : y = stepIdx <;> simp [hy]
    | succ j =>
      have hj : j < ys.length := by simpa using Nat.lt_of_succ_lt_succ h
      have := ih (stepAdvance stepIdx p y) j hj
      simp only [pointerTrace, List.getD_cons_succ, List.take_succ_cons, List.count_cons]
      rw [this]
      unfold stepAdvance
      by_cases hy : y = stepIdx <;> simp [hy] <;> ring

theorem count_take_mono (stepIdx : ℤ) (xs : List ℤ) (i : ℕ) :
    (xs.take (i + 1)).count stepIdx ≤ (xs.take (i + 2)).count stepIdx := by
  have hsub : (xs.take (i + 1)).Sublist (xs.take (i + 2)) := by
    have : xs.take (i + 1) = (xs.take (i + 2)).take (i + 1) := by
      rw [List.take_take]
      congr 1
      omega
    rw [this]
    exact List.take_sublist _ _
  exact hsub.count_le stepIdx

/-- C1: In `HardMonoTransducer.decode`, the alignment pointer starts at 0,
advances by one exactly when the currently fed target symbol equals the step
symbol, and never decreases; hence the pointer used while producing the
prediction for target position `idx + 1` is exactly the number of step-symbol
occurrences among positions `0 .. idx`, i.e. strictly before position
`idx + 1`, whatever the non-step symbols are. -/
theorem hardMono_pointer_spec (stepIdx : ℤ) (trg : List ℤ) (idx : ℕ)
    (h : idx < trg.length - 1) :
    pointerUsed stepIdx trg idx = (trg.take (idx + 1)).count stepIdx ∧
    (idx + 1 < trg.length - 1 →
      pointerUsed stepIdx trg idx ≤ pointerUsed stepIdx trg (idx + 1)) := by
  have hlen : (trg.take (trg.length - 1)).length = trg.length - 1 := by
    rw [List.length_take]
    omega
  have h1 : idx < (trg.take (trg.length - 1)).length := by rw [hlen]; exact h
  have e1 : pointerUsed stepIdx trg idx =
      ((trg.take (trg.length - 1)).take (idx + 1)).count stepIdx := by
    unfold pointerUsed
    rw [pointerTrace_getD stepIdx _ 0 idx h1]
    ring
  have etake : ∀ k : ℕ, k < trg.length - 1 →
      (trg.take (trg.length - 1)).take (k + 1) = trg.take (k + 1) := by
    intro k hk
    rw [List.take_take]
    congr 1
    omega
  constructor
  · rw [e1, etake idx h]
  · intro h2
    have h1b : idx + 1 < (trg.take (trg.length - 1)).length := by rw [hlen]; exact h2
    have e2 : pointerUsed stepIdx trg (idx + 1) =
        ((trg.take (trg.length - 1)).take (idx + 2)).count stepIdx := by
      unfold pointerUsed
      rw [pointerTrace_getD stepIdx _ 0 (idx + 1) h1b]
      ring
    rw [e1, e2]
    exact count_take_mono stepIdx _ idx

theorem hardMono_pointer_spec_witness :
    pointerUsed 3 [1, 3, 2, 3, 0] 2 = ([1, 3, 2] : List ℤ).count 3 ∧
    pointerUsed 3 [1, 3, 2, 3, 0] 2 ≤ pointerUsed 3 [1, 3, 2, 3, 0] 3 := by
  have h := hardMono_pointer_spec 3 [1, 3, 2, 3, 0] 2 (by decide)
  exact ⟨h.1, h.2 (by decide)⟩

/-- A two-axis tensor: sizes of the two axes plus an entry function.  Trailing
axes of a higher-rank tensor are folded into the entry type `A`. -/
structure Tensor2 (A : Type) where
  d0 : ℕ
  d1 : ℕ
  entry : ℕ → ℕ → A

/-- Embedding of `fancy_gather` (model_clean.py lines 379-382): asserts that
value and index agree in size along axis 1, splits both into per-batch chunks
along axis 1, indexes each value chunk along its own leading axis by that
chunk's index values, and re-concatenates along axis 1.  The failed assertion
is modelled as `none`. -/
def fancy_gather {A : Type} (value : Tensor2 A) (index : Tensor2 ℕ) : Option (Tensor2 A) :=
  if value.d1 = index.d1 then
    some ⟨index.d0, index.d1, fun k b => value.entry (index.entry k b) b⟩
  else
    none

/-- C8: `fancy_gather` fails its assertion exactly when the batch-axis sizes
disagree; under the precondition, entry (k, b) of the result is the value
chunk of batch position `b` indexed at that chunk's own index value -
independent of every other batch position - so a value tensor whose every
entry along the batch axis equals its own batch index yields that batch index
at every selected slot, for any index tensor. -/
theorem fancy_gather_spec (value : Tensor2 ℕ) (index : Tensor2 ℕ) :
    (value.d1 ≠ index.d1 → fancy_gather value index = none) ∧
    (value.d1 = index.d1 →
      fancy_gather value index =
        some ⟨index.d0, index.d1, fun k b => value.entry (index.entry k b) b⟩) ∧
    (value.d1 = index.d1 → (∀ k b, value.entry k b = b) →
      ∀ r, fancy_gather value index = some r → ∀ k b, r.entry k b = b) := by
  refine ⟨fun hne => ?_, fun heq => ?_, fun heq hval r hr k b => ?_⟩
  · simp [fancy_gather, hne]
  · simp [fancy_gather, heq]
  · simp [fancy_gather, heq] at hr
    rw [← hr]
    exact hval _ _

theorem fancy_gather_spec_witness :
    (fancy_gather ⟨2, 3, fun _ b => b⟩ ⟨4, 5, fun k b => k + b⟩ = none) ∧
    (∀ r, fancy_gather ⟨2, 3, fun _ b => b⟩ ⟨1, 3, fun _ _ => 1⟩ = some r →
      r.entry 0 2 = 2) := by
  have h1 := (fancy_gather_spec ⟨2, 3, fun _ b => b⟩ ⟨4, 5, fun k b => k + b⟩).1 (by decide)
  have h2 := (fancy_gather_spec ⟨2, 3, fun _ b => b⟩ ⟨1, 3, fun _ _ => 1⟩).2.2
    (by decide) (fun k b => rfl)
  exact ⟨h1, fun r hr => h2 r hr 0 2⟩

/-- Embedding of the context selection at the top of
`HardMonoTransducer.decode_step` (model_clean.py lines 308-318): `source` is
the encoder-state tensor of shape (src_len, batch) with hidden vectors folded
into `A`; an integer pointer asserts batch size 1 and indexes the leading axis
directly, while a tensor pointer of shape (1, batch) goes through
`fancy_gather` followed by `squeeze(0)`.  Failed assertions are `none`. -/
def hardMono_select_ctx {A : Type} (source : Tensor2 A) (attn_pos : ℕ ⊕ Tensor2 ℕ) :
    Option (ℕ → A) :=
  match attn_pos with
  | Sum.inl p => if source.d1 = 1 then some (fun b => source.entry p b) else none
  | Sum.inr t => (fancy_gather source t).map (fun r => fun b => r.entry 0 b)

/-- C10: with a plain integer pointer, `HardMonoTransducer.decode_step`
requires batch size exactly 1 (assertion failure otherwise) and selects the
encoder state at that source position directly; the batched `fancy_gather`
path is taken only for tensor-valued pointers. -/
theorem hardMono_decode_step_pointer_spec {A : Type} (source : Tensor2 A) :
    (∀ p : ℕ, source.d1 ≠ 1 → hardMono_select_ctx source (Sum.inl p) = none) ∧
    (∀ p : ℕ, source.d1 = 1 →
      hardMono_select_ctx source (Sum.inl p) = some (fun b => source.entry p b)) ∧
    (∀ t : Tensor2 ℕ, source.d1 = t.d1 →
      hardMono_select_ctx source (Sum.inr t) =
        some (fun b => source.entry (t.entry 0 b) b)) := by
  refine ⟨fun p hne => ?_, fun p heq => ?_, fun t heq => ?_⟩
  · simp [hardMono_select_ctx, hne]
  · simp [hardMono_select_ctx, heq]
  · simp [hardMono_select_ctx, fancy_gather, heq]

theorem hardMono_decode_step_pointer_spec_witness :
    (hardMono_select_ctx ⟨4, 2, fun k b => 10 * k + b⟩ (Sum.inl 3) = none) ∧
    (hardMono_select_ctx ⟨4, 1, fun k b => 10 * k + b⟩ (Sum.inl 3) =
      some (fun b => 10 * 3 + b)) ∧
    (hardMono_select_ctx ⟨4, 2, fun k b => 10 * k + b⟩
        (Sum.inr ⟨1, 2, fun _ b => b⟩) =
      some (fun b => 10 * b + b)) := by
  have h1 := (hardMono_decode_step_pointer_spec ⟨4, 2, fun k b => 10 * k + b⟩).1 3
    (by decide)
  have h2 := (hardMono_decode_step_pointer_spec ⟨4, 1, fun k b => 10 * k + b⟩).2.1 3
    rfl
  have h3 := (hardMono_decode_step_pointer_spec ⟨4, 2, fun k b => 10 * k + b⟩).2.2
    ⟨1, 2, fun _ b => b⟩ rfl
  exact ⟨h1, h2, h3⟩

/-- Embedding of `F.nll_loss(predict.view(-1, V), target.view(-1),
ignore_index=PAD_IDX)` as used by `Transducer.loss` (model_clean.py lines
116-123): the mean, over all flattened positions whose target is not the
ignored index, of the negated predicted log-probability of the target symbol.
Each pair holds one position's predicted log-probability vector and its target
symbol. -/
noncomputable def nll_loss (pairs : List ((ℕ → ℝ) × ℕ)) (ignore : ℕ) : ℝ :=
  ((pairs.filter (fun pt => pt.2 != ignore)).map (fun pt => -(pt.1 pt.2))).sum /
    ((pairs.filter (fun pt => pt.2 != ignore)).length : ℝ)

/-- The flattening performed by the two `view` calls inside `Transducer.loss`:
a (steps, batch) grid of prediction-vector / target pairs becomes one flat
list, step-major then batch. -/
def flatten_pairs (B : ℕ) (predict : List (ℕ → ℕ → ℝ)) (target : List (ℕ → ℕ)) :
    List ((ℕ → ℝ) × ℕ) :=
  ((predict.zip target).map (fun pt => (List.range B).map (fun b => (pt.1 b, pt.2 b)))).join

/-- Embedding of `Transducer.loss` (lines 116-123) for batch size `B`. -/
noncomputable def Transducer.loss (padIdx B : ℕ) (predict : List (ℕ → ℕ → ℝ))
    (target : List (ℕ → ℕ)) : ℝ :=
  nll_loss (flatten_pairs B predict target) padIdx

/-- The teacher-forcing loop of `Transducer.decode` (lines 92-99) over a list
of already-embedded inputs, threading the decoder hidden state; the per-step
computation `step` abstracts the variant's `decode_step` (whose recurrent and
attention components live outside this excerpt). -/
def decodeLoop {A S B : Type} (step : A → S → B × S) : S → List A → List B
  | _, [] => []
  | h, x :: xs => (step x h).1 :: decodeLoop step (step x h).2 xs

/-- The decoder hidden state after `decodeLoop` has consumed its inputs. -/
def decodeHidden {A S B : Type} (step : A → S → B × S) : S → List A → S
  | h, [] => h
  | h, x :: xs => decodeHidden step (step x h).2 xs

/-- Embedding of `Transducer.decode` (lines 85-99): embed the target batch
row-wise (`trg_embed` plus dropout folded into `embed`), start from the fresh
decoder state `init` (`get_init_hx`; modelled from the spec: the decoder-cell
abstraction produces a fresh zero-initialized state, its type is opaque here),
feed the ground-truth symbol at every target position except the last, stack
the per-step outputs. -/
def Transducer.decode {A S B : Type} (step : (ℕ → A) → S → B × S)
    (embed : ℕ → A) (init : S) (trg : List (ℕ → ℕ)) : List B :=
  decodeLoop step init ((trg.take (trg.length - 1)).map (fun row => fun b => embed (row b)))

/-- Embedding of `Transducer.get_loss` (lines 125-129): forward (encode is a
function of the source only, folded into `step`), then score the decoded
output against the target shifted by one. -/
noncomputable def Transducer.get_loss {A S : Type} (padIdx B : ℕ)
    (step : (ℕ → A) → S → (ℕ → ℕ → ℝ) × S) (embed : ℕ → A) (init : S)
    (trg : List (ℕ → ℕ)) : ℝ :=
  Transducer.loss padIdx B (Transducer.decode step embed init trg) (trg.drop 1)

theorem decodeLoop_length {A S B : Type} (step : A → S → B × S) (h : S) (xs : List A) :
    (decodeLoop step h xs).length = xs.length := by
  induction xs generalizing h with
  | nil => rfl
  | cons y ys ih => simp [decodeLoop, ih]

theorem decodeLoop_append {A S B : Type} (step : A → S → B × S) (h : S)
    (xs ys : List A) :
    decodeLoop step h (xs ++ ys) =
      decodeLoop step h xs ++ decodeLoop step (decodeHidden step h xs) ys := by
  induction xs generalizing h with
  | nil => rfl
  | cons z zs ih => simp [decodeLoop, decodeHidden, ih]

theorem nll_loss_append_ignored (ps qs : List ((ℕ → ℝ) × ℕ)) (ignore : ℕ)
    (hq : ∀ pt ∈ qs, pt.2 = ignore) :
    nll_loss (ps ++ qs) ignore = nll_loss ps ignore := by
  have : qs.filter (fun pt => pt.2 != ignore) = [] := by
    rw [List.filter_eq_nil]
    intro pt hpt
    simp [hq pt hpt]
  simp [nll_loss, List.filter_append, this]

theorem flatten_pairs_append_single (B : ℕ) (predict : List (ℕ → ℕ → ℝ))
    (target : List (ℕ → ℕ)) (e : ℕ → ℕ → ℝ) (p : ℕ → ℕ)
    (hlen : predict.length = target.length) :
    flatten_pairs B (predict ++ [e]) (target ++ [p]) =
      flatten_pairs B predict target ++ (List.range B).map (fun b => (e b, p b)) := by
  unfold flatten_pairs
  rw [List.zip_append hlen]
  simp

/-- C4: for the baseline Transducer, appending an extra all-PAD target row to
a batch changes neither `loss` nor `get_loss`: PAD-target positions contribute
neither to the summed negative log-likelihood nor to the count used for
averaging, and the appended row is never fed to the teacher-forcing loop. -/
theorem transducer_loss_pad_spec {A S : Type} (padIdx B : ℕ)
    (step : (ℕ → A) → S → (ℕ → ℕ → ℝ) × S) (embed : ℕ → A) (init : S)
    (trg : List (ℕ → ℕ)) :
    Transducer.get_loss padIdx B step embed init (trg ++ [fun _ => padIdx]) =
      Transducer.get_loss padIdx B step embed init trg ∧
    (∀ (predict : List (ℕ → ℕ → ℝ)) (target : List (ℕ → ℕ)) (e : ℕ → ℕ → ℝ),
      predict.length = target.length →
      Transducer.loss padIdx B (predict ++ [e]) (target ++ [fun _ => padIdx]) =
        Transducer.loss padIdx B predict target) := by
  have loss_part : ∀ (predict : List (ℕ → ℕ → ℝ)) (target : List (ℕ → ℕ))
      (e : ℕ → ℕ → ℝ), predict.length = target.length →
      Transducer.loss padIdx B (predict ++ [e]) (target ++ [fun _ => padIdx]) =
        Transducer.loss padIdx B predict target := by
    intro predict target e hlen
    unfold Transducer.loss
    rw [flatten_pairs_append_single B predict target e _ hlen]
    apply nll_loss_append_ignored
    intro pt hpt
    simp only [List.mem_map, List.mem_range] at hpt
    obtain ⟨b, _, hb⟩ := hpt
    rw [← hb]
  refine ⟨?_, loss_part⟩
  cases trg with
  | nil =>
    unfold Transducer.get_loss Transducer.decode
    simp [decodeLoop]
  | cons r rs =>
    unfold Transducer.get_loss
    set trg0 : List (ℕ → ℕ) := r :: rs with htrg0
    have hL : 1 ≤ trg0.length := by simp [htrg0]
    set f : (ℕ → ℕ) → (ℕ → A) := fun row => fun b => embed (row b) with hf
    have hdec : Transducer.decode step embed init (trg0 ++ [fun _ => padIdx]) =
        Transducer.decode step embed init trg0 ++
          decodeLoop step
            (decodeHidden step init ((trg0.take (trg0.length - 1)).map f))
            ((trg0.drop (trg0.length - 1)).map f) := by
      unfold Transducer.decode
      have h1 : (trg0 ++ [fun _ => padIdx]).length - 1 = trg0.length := by
        simp
      rw [h1, List.take_left]
      conv_lhs => rw [← List.take_append_drop (trg0.length - 1) trg0]
      rw [List.map_append, decodeLoop_append]
    rw [hdec]
    have hsuffix : (decodeLoop step
        (decodeHidden step init ((trg0.take (trg0.length - 1)).map f))
        ((trg0.drop (trg0.length - 1)).map f)).length = 1 := by
      rw [decodeLoop_length, List.length_map, List.length_drop]
      omega
    obtain ⟨e, he⟩ := List.length_eq_one.mp hsuffix
    rw [he]
    have hdrop : (trg0 ++ [fun _ => padIdx]).drop 1 = trg0.drop 1 ++ [fun _ => padIdx] := by
      rw [List.drop_append_of_le_length hL]
    rw [hdrop]
    apply loss_part
    unfold Transducer.decode
    rw [decodeLoop_length, List.length_map, List.length_take, List.length_drop]
    omega

theorem transducer_loss_pad_spec_witness :
    Transducer.get_loss 0 2 (fun (_ : ℕ → ℕ) (h : ℕ) => ((fun _ _ => (0 : ℝ)), h))
        (fun s => s) 0 ([fun _ => 1, fun _ => 2] ++ [fun _ => 0]) =
      Transducer.get_loss 0 2 (fun (_ : ℕ → ℕ) (h : ℕ) => ((fun _ _ => (0 : ℝ)), h))
        (fun s => s) 0 [fun _ => 1, fun _ => 2] ∧
    Transducer.loss 0 2 ([fun _ _ => (1 : ℝ)] ++ [fun _ _ => (2 : ℝ)])
        ([fun _ => 5] ++ [fun _ => 0]) =
      Transducer.loss 0 2 [fun _ _ => (1 : ℝ)] [fun _ => 5] := by
  have h := transducer_loss_pad_spec 0 2
    (fun (_ : ℕ → ℕ) (h : ℕ) => ((fun _ _ => (0 : ℝ)), h)) (fun s => s) 0
    [fun _ => 1, fun _ => 2]
  exact ⟨h.1, h.2 [fun _ _ => (1 : ℝ)] [fun _ => 5] (fun _ _ => (2 : ℝ)) rfl⟩

/-- Embedding of `HMM.emiss` (model_clean.py lines 149-159): at time `T`, for
every batch element `b` and state `s`, gather the log-emission score of the
observed token `idx b`; when `ignore` is given, multiply by the 0/1 mask
`idx b != ignore` (zeroing the contribution of ignored positions). -/
noncomputable def HMM.emiss (emission : ℕ → ℕ → ℕ → ℕ → ℝ) (T : ℕ) (idx : ℕ → ℕ)
    (ignore : Option ℕ) : ℕ → ℕ → ℝ :=
  fun b s =>
    match ignore with
    | none => emission T b s (idx b)
    | some ig => emission T b s (idx b) * (if idx b = ig then 0 else 1)

/-- The loop body of `HMM.p_x` (lines 170-177), written with the source's
broadcast/transpose steps spelled out on functional tensors: add
`transition[t].transpose(1, 2)` to the broadcast `fwd`, logsumexp over the
last axis, transpose back (a no-op on the squeezed representation), then add
the masked emission at `t + 1`. -/
noncomputable def HMM.p_x_step (ns : ℕ) (transition : ℕ → ℕ → ℕ → ℕ → ℝ)
    (emission : ℕ → ℕ → ℕ → ℕ → ℝ) (seq : ℕ → ℕ → ℕ) (ignore : Option ℕ)
    (t : ℕ) (fwd : ℕ → ℕ → ℝ) : ℕ → ℕ → ℝ :=
  let transT : ℕ → ℕ → ℕ → ℝ := fun b j i => transition t b i j
  let added : ℕ → ℕ → ℕ → ℝ := fun b j i => fwd b i + transT b j i
  let lse : ℕ → ℕ → ℝ := fun b j => logsumexp ns (fun i => added b j i)
  fun b j => lse b j + HMM.emiss emission (t + 1) (seq (t + 1)) ignore b j

/-- Iterated application of an index-dependent step, mirroring
`for t in range(n): fwd = step(t, fwd)`. -/
def iterSteps {C : Type} (f : ℕ → C → C) : ℕ → C → C
  | 0, a => a
  | n + 1, a => f n (iterSteps f n a)

/-- Embedding of `HMM.p_x` (lines 161-178) on a length-`T` observed sequence:
initialize with `initial + emiss(0, seq[0])`, run the loop body `T - 1` times,
return the final forward vector (per batch element, one entry per hidden
state; not marginalized over the final state). -/
noncomputable def HMM.p_x (ns T : ℕ) (initial : ℕ → ℕ → ℝ)
    (transition emission : ℕ → ℕ → ℕ → ℕ → ℝ) (seq : ℕ → ℕ → ℕ)
    (ignore : Option ℕ) : ℕ → ℕ → ℝ :=
  iterSteps (HMM.p_x_step ns transition emission seq ignore) (T - 1)
    (fun b s => initial b s + HMM.emiss emission 0 (seq 0) ignore b s)

/-- The forward algorithm exactly as the specification states it:
fwd_0 = initial + emiss(0, seq[0], ignore); fwd_{t+1}(j) =
logsumexp_i(fwd_t(i) + transition_t(i, j)) + emiss(t+1, seq[t+1], ignore)(j). -/
noncomputable def forwardSpec (ns : ℕ) (initial : ℕ → ℕ → ℝ)
    (transition emission : ℕ → ℕ → ℕ → ℕ → ℝ) (seq : ℕ → ℕ → ℕ)
    (ignore : Option ℕ) : ℕ → ℕ → ℕ → ℝ
  | 0 => fun b s => initial b s + HMM.emiss emission 0 (seq 0) ignore b s
  | t + 1 => fun b j =>
      logsumexp ns
        (fun i => forwardSpec ns initial transition emission seq ignore t b i +
          transition t b i j) +
      HMM.emiss emission (t + 1) (seq (t + 1)) ignore b j

/-- C2: `HMM.p_x` computes the log-space forward algorithm of the spec: its
result on a length-`T` sequence is exactly the spec's forward vector at step
`T - 1` - the log-probability of the observed prefix per final hidden state,
with no marginalization over the final state applied. -/
theorem hmm_p_x_forward_spec (ns T : ℕ) (initial : ℕ → ℕ → ℝ)
    (transition emission : ℕ → ℕ → ℕ → ℕ → ℝ) (seq : ℕ → ℕ → ℕ)
    (ignore : Option ℕ) :
    HMM.p_x ns T initial transition emission seq ignore =
      forwardSpec ns initial transition emission seq ignore (T - 1) := by
  unfold HMM.p_x
  generalize T - 1 = n
  induction n with
  | zero => rfl
  | succ m ih =>
    show HMM.p_x_step ns transition emission seq ignore m
        (iterSteps (HMM.p_x_step ns transition emission seq ignore) m _) = _
    rw [ih]
    rfl

/-- Embedding of `HardAttnTransducer.decode_step` (model_clean.py lines
349-376) per batch element, with the out-of-excerpt components abstracted:
`attns` is the attention-weight row over the `n` source positions and
`score j` is position `j`'s vocabulary score row, the output of
`final_out(tanh(linear_out(ctx)))`.  The step applies softmax along the
vocabulary axis, mixes the per-position probability rows with the attention
weights by `torch.bmm`, and returns the elementwise log of the mixture. -/
noncomputable def hardAttn_decode_step (n V : ℕ) (attns : ℕ → ℝ)
    (score : ℕ → ℕ → ℝ) : ℕ → ℝ :=
  let word_prob : ℕ → ℕ → ℝ := fun j v => softmax V (score j) v
  let mixed : ℕ → ℝ := fun v => ∑ j in Finset.range n, attns j * word_prob j v
  fun v => Real.log (mixed v)

/-- The spec's wording for C5: the elementwise logarithm of the
attention-weighted linear mixture of the per-source-position softmax
vocabulary distributions. -/
noncomputable def hardAttn_mixture_spec (n V : ℕ) (attns : ℕ → ℝ)
    (score : ℕ → ℕ → ℝ) : ℕ → ℝ :=
  fun v => Real.log (∑ j in Finset.range n,
    attns j * (Real.exp (score j v) / ∑ u in Finset.range V, Real.exp (score j u)))

theorem sum_exp_pos (V : ℕ) (hV : 0 < V) (g : ℕ → ℝ) :
    (0 : ℝ) < ∑ u in Finset.range V, Real.exp (g u) :=
  Finset.sum_pos (fun u _ => Real.exp_pos (g u))
    (Finset.nonempty_range_iff.mpr (Nat.pos_iff_ne_zero.mp hV))

theorem softmax_sum_one (V : ℕ) (hV : 0 < V) (g : ℕ → ℝ) :
    ∑ v in Finset.range V, softmax V g v = 1 := by
  unfold softmax
  rw [← Finset.sum_div]
  exact div_self (ne_of_gt (sum_exp_pos V hV g))

theorem softmax_pos (V : ℕ) (hV : 0 < V) (g : ℕ → ℝ) (v : ℕ) :
    0 < softmax V g v :=
  div_pos (Real.exp_pos (g v)) (sum_exp_pos V hV g)

/-- C5: `HardAttnTransducer.decode_step` returns, per batch example, the
elementwise log of the attention-weighted linear mixture of per-position
softmax vocabulary distributions; each per-position distribution is a genuine
linear-space probability vector (positive entries summing to 1), and only the
final mixed vector is taken to log space. -/
theorem hardAttn_decode_step_spec (n V : ℕ) (attns : ℕ → ℝ) (score : ℕ → ℕ → ℝ) :
    hardAttn_decode_step n V attns score = hardAttn_mixture_spec n V attns score ∧
    (0 < V → ∀ j, ∑ v in Finset.range V, softmax V (score j) v = 1) ∧
    (0 < V → ∀ j v, 0 < softmax V (score j) v) := by
  refine ⟨rfl, fun hV j => softmax_sum_one V hV (score j),
    fun hV j v => softmax_pos V hV (score j) v⟩

theorem hardAttn_decode_step_spec_witness :
    hardAttn_decode_step 2 3 (fun _ => 1) (fun _ _ => 0) =
      hardAttn_mixture_spec 2 3 (fun _ => 1) (fun _ _ => 0) ∧
    ∑ v in Finset.range 3, softmax 3 ((fun _ _ => (0 : ℝ)) 0) v = 1 := by
  have h := hardAttn_decode_step_spec 2 3 (fun _ => 1) (fun _ _ => 0)
  exact ⟨h.1, h.2.1 (by decide) 0⟩

/-- Embedding of the transition computation inside `HMMTransducer.decode_step`
(model_clean.py lines 228-231), per batch element: `score` is the similarity
row produced by `torch.bmm(hs_, h_t)` (its inputs live outside this excerpt)
and `mask` the encoder mask column.  The code applies softmax, multiplies by
the mask, adds EPSILON, renormalizes by the row sum, and takes the log; the
following `expand` (line 232) merely repeats the row and is omitted. -/
noncomputable def hmmTrans_trans (n : ℕ) (score mask : ℕ → ℝ) : ℕ → ℝ :=
  fun j => Real.log ((softmax n score j * mask j + EPSILON) /
    ∑ k in Finset.range n, (softmax n score k * mask k + EPSILON))

/-- Embedding of `Categorical.log_prob` (model_clean.py lines 395-396):
gather each row's chosen-outcome probability from the transposed probability
matrix via `fancy_gather`, add EPSILON, take the log.  `probs_t` is the
transposed matrix (outcomes along axis 0, rows along axis 1); a failed
`fancy_gather` assertion is `none`. -/
noncomputable def Categorical.log_prob (probs_t : Tensor2 ℝ) (value : Tensor2 ℕ) :
    Option (Tensor2 ℝ) :=
  (fancy_gather probs_t value).map
    (fun r => ⟨r.d0, r.d1, fun k b => Real.log (r.entry k b + EPSILON)⟩)

/-- C3 counterexample: with all attention weights zero, the quantity logged at
the end of `HardAttnTransducer.decode_step` is a plain log of zero - the code
adds no EPSILON floor to the mixed probability vector, so the result differs
from the floored computation the claim asserts for this path. -/
theorem epsilon_floor_counterexample :
    hardAttn_decode_step 1 1 (fun _ => 0) (fun _ _ => 0) 0 ≠
      Real.log ((∑ j in Finset.range 1,
        (fun _ => (0 : ℝ)) j * softmax 1 ((fun _ _ => (0 : ℝ)) j) 0) + EPSILON) := by
  have hl : hardAttn_decode_step 1 1 (fun _ => 0) (fun _ _ => 0) 0 = 0 := by
    unfold hardAttn_decode_step
    simp
  have hr : (∑ j in Finset.range 1,
      (fun _ => (0 : ℝ)) j * softmax 1 ((fun _ _ => (0 : ℝ)) j) 0) + EPSILON = EPSILON := by
    simp
  rw [hl, hr]
  have hneg : Real.log EPSILON < 0 :=
    Real.log_neg (by norm_num [EPSILON]) (by norm_num [EPSILON])
  intro hcontra
  rw [← hcontra] at hneg
  exact lt_irrefl 0 hneg

/-- C3 amended: the additive EPSILON floor protects the logarithm in the
HMMTransducer transition distribution (softmax times mask plus EPSILON,
before the division and the log, so the logged ratio is strictly positive
whenever the mask is nonnegative) and in `Categorical.log_prob` (probability
plus EPSILON is strictly positive for nonnegative probabilities); the mixed
probability vector at the end of `HardAttnTransducer.decode_step`, however,
is logged directly with no floor. -/
theorem epsilon_floor_spec (n : ℕ) (score mask : ℕ → ℝ) (probs_t : Tensor2 ℝ)
    (value : Tensor2 ℕ) :
    (0 < n → (∀ j, 0 ≤ mask j) → ∀ j,
      0 < (softmax n score j * mask j + EPSILON) /
          (∑ k in Finset.range n, (softmax n score k * mask k + EPSILON)) ∧
      hmmTrans_trans n score mask j =
        Real.log ((softmax n score j * mask j + EPSILON) /
          (∑ k in Finset.range n, (softmax n score k * mask k + EPSILON)))) ∧
    ((∀ k b, 0 ≤ probs_t.entry k b) →
      ∀ r, Categorical.log_prob probs_t value = some r →
        ∀ k b, 0 < probs_t.entry (value.entry k b) b + EPSILON ∧
          r.entry k b = Real.log (probs_t.entry (value.entry k b) b + EPSILON)) ∧
    (∀ (m V : ℕ) (attns : ℕ → ℝ) (sc : ℕ → ℕ → ℝ) (v : ℕ),
      hardAttn_decode_step m V attns sc v =
        Real.log (∑ j in Finset.range m, attns j * softmax V (sc j) v)) := by
  have heps : (0 : ℝ) < EPSILON := by norm_num [EPSILON]
  refine ⟨fun hn hmask j => ?_, fun hprobs r hr k b => ?_, fun m V attns sc v => rfl⟩
  · have hterm : ∀ k, 0 < softmax n score k * mask k + EPSILON := by
      intro k
      have h1 : 0 ≤ softmax n score k * mask k :=
        mul_nonneg (le_of_lt (softmax_pos n hn score k)) (hmask k)
      linarith
    have hsum : 0 < ∑ k in Finset.range n, (softmax n score k * mask k + EPSILON) :=
      Finset.sum_pos (fun k _ => hterm k)
        (Finset.nonempty_range_iff.mpr (Nat.pos_iff_ne_zero.mp hn))
    exact ⟨div_pos (hterm j) hsum, rfl⟩
  · unfold Categorical.log_prob fancy_gather at hr
    by_cases hd : probs_t.d1 = value.d1
    · rw [if_pos hd] at hr
      simp only [Option.map_some', Option.some.injEq] at hr
      rw [← hr]
      exact ⟨by linarith [hprobs (value.entry k b) b], rfl⟩
    · simp [hd] at hr

theorem epsilon_floor_spec_witness :
    (0 < (softmax 1 (fun _ => (0 : ℝ)) 0 * (fun _ => (1 : ℝ)) 0 + EPSILON) /
        (∑ k in Finset.range 1,
          (softmax 1 (fun _ => (0 : ℝ)) k * (fun _ => (1 : ℝ)) k + EPSILON))) ∧
    (0 < (Tensor2.mk 1 1 (fun _ _ => (1 / 2 : ℝ))).entry 0 0 + EPSILON) := by
  have h := epsilon_floor_spec 1 (fun _ => 0) (fun _ => 1)
    ⟨1, 1, fun _ _ => (1 / 2 : ℝ)⟩ ⟨1, 1, fun _ _ => 0⟩
  refine ⟨(h.1 (by decide) (fun j => by norm_num) 0).1, ?_⟩
  have h2 := h.2.1 (fun k b => by norm_num)
    ⟨1, 1, fun _ _ => Real.log ((1 / 2 : ℝ) + EPSILON)⟩ rfl 0 0
  exact h2.1

/-- Embedding of the mask built by `MonoHMMTransducer.decode_step`
(model_clean.py lines 245-246): `(ones.triu() - 1) * -log(EPSILON)`.  Entries
on or above the diagonal receive 0; strictly-below-diagonal entries receive
`log(EPSILON)`, i.e. a penalty of `-log(EPSILON)` is added to them. -/
noncomputable def trans_mask (i j : ℕ) : ℝ :=
  ((if i ≤ j then (1 : ℝ) else 0) - 1) * (-(Real.log EPSILON))

/-- Embedding of `MonoHMMTransducer.decode_step` (lines 241-249): add the
upper-triangular mask to the parent's log-space transition matrix and
renormalize each row in log space by subtracting the row's logsumexp. -/
noncomputable def monoHMM_trans (n : ℕ) (trans : ℕ → ℕ → ℝ) : ℕ → ℕ → ℝ :=
  fun i j => (trans i j + trans_mask i j) -
    logsumexp n (fun k => trans i k + trans_mask i k)

/-- The probability matrix the spec expects, approximately, for the uniform
3-state example after masking and renormalization. -/
noncomputable def monoTarget : ℕ → ℕ → ℝ :=
  fun i j => if j < i then 0 else if i = 0 then 1 / 3 else if i = 1 then 1 / 2 else 1

theorem exp_sub_logsumexp (n : ℕ) (hn : 0 < n) (f : ℕ → ℝ) (x : ℝ) :
    Real.exp (x - logsumexp n f) =
      Real.exp x / ∑ u in Finset.range n, Real.exp (f u) := by
  unfold logsumexp
  rw [Real.exp_sub, Real.exp_log (sum_exp_pos n hn f)]

theorem exp_masked_uniform (i j : ℕ) :
    Real.exp (Real.log (1 / 3 : ℝ) + trans_mask i j) =
      if i ≤ j then (1 / 3 : ℝ) else 1 / 3 * EPSILON := by
  unfold trans_mask
  by_cases h : i ≤ j
  · rw [if_pos h, if_pos h]
    rw [show ((1 : ℝ) - 1) * (-(Real.log EPSILON)) = 0 by ring, add_zero]
    exact Real.exp_log (by norm_num)
  · rw [if_neg h, if_neg h]
    rw [show ((0 : ℝ) - 1) * (-(Real.log EPSILON)) = Real.log EPSILON by ring]
    rw [Real.exp_add, Real.exp_log (by norm_num : (0 : ℝ) < 1 / 3),
      Real.exp_log (by norm_num [EPSILON] : (0 : ℝ) < EPSILON)]

/-- C6: `MonoHMMTransducer.decode_step` adds a penalty of `-log(EPSILON)` to
every strictly-below-diagonal entry of the parent transition matrix (entries
on or above the diagonal are untouched) and renormalizes each row by its
logsumexp, so every row of the exponentiated result sums to 1; on the 3-state
transition whose pre-mask probabilities are all 1/3, the exponentiated result
is within 1e-6 of [[1/3,1/3,1/3],[0,1/2,1/2],[0,0,1]], and every
strictly-backward entry is at most 1e-6. -/
theorem monoHMM_decode_step_spec :
    (∀ (trans : ℕ → ℕ → ℝ) (i j : ℕ),
      (i ≤ j → trans i j + trans_mask i j = trans i j) ∧
      (j < i → trans i j + trans_mask i j = trans i j - (-(Real.log EPSILON)))) ∧
    (∀ (n : ℕ) (trans : ℕ → ℕ → ℝ) (i : ℕ), 0 < n →
      ∑ j in Finset.range n, Real.exp (monoHMM_trans n trans i j) = 1) ∧
    (∀ i j : ℕ, i < 3 → j < 3 →
      |Real.exp (monoHMM_trans 3 (fun _ _ => Real.log (1 / 3)) i j) - monoTarget i j| ≤
        1 / 10 ^ 6 ∧
      (j < i →
        Real.exp (monoHMM_trans 3 (fun _ _ => Real.log (1 / 3)) i j) ≤ 1 / 10 ^ 6)) := by
  have hval : ∀ i j : ℕ,
      Real.exp (monoHMM_trans 3 (fun _ _ => Real.log (1 / 3 : ℝ)) i j) =
        (if i ≤ j then (1 / 3 : ℝ) else 1 / 3 * EPSILON) /
          ∑ k in Finset.range 3, (if i ≤ k then (1 / 3 : ℝ) else 1 / 3 * EPSILON) := by
    intro i j
    unfold monoHMM_trans
    rw [exp_sub_logsumexp 3 (by norm_num)]
    rw [exp_masked_uniform]
    congr 1
    refine Finset.sum_congr rfl (fun k _ => ?_)
    rw [exp_masked_uniform]
  refine ⟨fun trans i j => ⟨fun h => ?_, fun h => ?_⟩, fun n trans i hn => ?_,
    fun i j hi hj => ?_⟩
  · unfold trans_mask
    rw [if_pos h]
    ring
  · unfold trans_mask
    rw [if_neg (by omega : ¬ i ≤ j)]
    ring
  · unfold monoHMM_trans
    simp only [exp_sub_logsumexp n hn]
    rw [← Finset.sum_div]
    exact div_self (ne_of_gt (sum_exp_pos n hn _))
  · rw [hval i j]
    interval_cases i <;> interval_cases j <;>
      refine ⟨?_, fun hji => ?_⟩ <;>
      first
        | (exfalso; omega)
        | norm_num [Finset.sum_range_succ, monoTarget, EPSILON, abs_le]

theorem monoHMM_decode_step_spec_witness :
    ∑ j in Finset.range 3,
      Real.exp (monoHMM_trans 3 (fun _ _ => Real.log (1 / 3)) 1 j) = 1 ∧
    Real.exp (monoHMM_trans 3 (fun _ _ => Real.log (1 / 3)) 1 0) ≤ 1 / 10 ^ 6 := by
  have h := monoHMM_decode_step_spec
  exact ⟨h.2.1 3 _ 1 (by decide), (h.2.2 1 0 (by decide) (by decide)).2 (by decide)⟩

/-- Embedding of the baseline `Transducer.decode_step` (model_clean.py lines
70-83): the decoder cell, attention context, `linear_out` and `tanh` stages
(components outside this excerpt) are folded into `cell`, which maps the
embedded input and hidden state to per-batch vocabulary scores (the argument
of the final projection) and the new hidden state; the concluding
`F.log_softmax` over the vocabulary axis is concrete. -/
noncomputable def Transducer.decode_step {A S : Type} (V : ℕ)
    (cell : (ℕ → A) → S → (ℕ → ℕ → ℝ) × S) :
    (ℕ → A) → S → (ℕ → ℕ → ℝ) × S :=
  fun input hidden =>
    ((fun b => log_softmax V ((cell input hidden).1 b)), (cell input hidden).2)

theorem exp_log_softmax_sum (V : ℕ) (hV : 0 < V) (f : ℕ → ℝ) :
    ∑ v in Finset.range V, Real.exp (log_softmax V f v) = 1 := by
  unfold log_softmax
  simp only [exp_sub_logsumexp V hV]
  rw [← Finset.sum_div]
  exact div_self (ne_of_gt (sum_exp_pos V hV f))

theorem decodeLoop_mem_decode_step {A S : Type} (V : ℕ)
    (cell : (ℕ → A) → S → (ℕ → ℕ → ℝ) × S) (h : S) (xs : List (ℕ → A))
    (out : ℕ → ℕ → ℝ)
    (hmem : out ∈ decodeLoop (Transducer.decode_step V cell) h xs) :
    ∃ (x : ℕ → A) (s : S), out = fun b => log_softmax V ((cell x s).1 b) := by
  induction xs generalizing h with
  | nil => simp [decodeLoop] at hmem
  | cons y ys ih =>
    simp only [decodeLoop, List.mem_cons] at hmem
    rcases hmem with h1 | h2
    · exact ⟨y, h, h1⟩
    · exact ih _ h2

theorem decodeLoop_getD_prefix {A S B : Type} (step : A → S → B × S) (d : B) :
    ∀ (i : ℕ) (xs ys : List A) (h : S), i < xs.length → i < ys.length →
      xs.take (i + 1) = ys.take (i + 1) →
      (decodeLoop step h xs).getD i d = (decodeLoop step h ys).getD i d := by
  intro i
  induction i with
  | zero =>
    intro xs ys h hx hy htake
    cases xs with
    | nil => simp at hx
    | cons a as =>
      cases ys with
      | nil => simp at hy
      | cons b bs =>
        simp only [List.take_succ_cons, List.take_zero, List.cons.injEq] at htake
        rw [htake.1]
        rfl
  | succ j ih =>
    intro xs ys h hx hy htake
    cases xs with
    | nil => simp at hx
    | cons a as =>
      cases ys with
      | nil => simp at hy
      | cons b bs =>
        simp only [List.take_succ_cons, List.cons.injEq] at htake
        rw [htake.1]
        show (decodeLoop step (step b h).2 as).getD j d =
          (decodeLoop step (step b h).2 bs).getD j d
        exact ih as bs (step b h).2 (by simpa using hx) (by simpa using hy) htake.2

/-- C9: for every target batch, `Transducer.decode` returns exactly
`target length - 1` per-step outputs, produced by teacher forcing (the output
at step `i` depends only on the first `i + 1` ground-truth target rows,
starting from the fresh initial decoder state), and every per-step,
per-example vocabulary vector is a log-probability distribution: its
exponentiation sums to 1. -/
theorem transducer_decode_spec {A S : Type} (V : ℕ)
    (cell : (ℕ → A) → S → (ℕ → ℕ → ℝ) × S) (embed : ℕ → A) (init : S)
    (trg : List (ℕ → ℕ)) :
    (Transducer.decode (Transducer.decode_step (V + 1) cell) embed init trg).length =
      trg.length - 1 ∧
    (∀ i b : ℕ, i < trg.length - 1 →
      ∑ v in Finset.range (V + 1),
        Real.exp (((Transducer.decode (Transducer.decode_step (V + 1) cell)
          embed init trg).getD i (fun _ _ => 0)) b v) = 1) ∧
    (∀ (trg2 : List (ℕ → ℕ)) (i : ℕ), i < trg.length - 1 → i < trg2.length - 1 →
      trg.take (i + 1) = trg2.take (i + 1) →
      (Transducer.decode (Transducer.decode_step (V + 1) cell) embed init
          trg).getD i (fun _ _ => 0) =
        (Transducer.decode (Transducer.decode_step (V + 1) cell) embed init
          trg2).getD i (fun _ _ => 0)) := by
  have hlen : ∀ t : List (ℕ → ℕ),
      (Transducer.decode (Transducer.decode_step (V + 1) cell) embed init t).length =
        t.length - 1 := by
    intro t
    unfold Transducer.decode
    rw [decodeLoop_length, List.length_map, List.length_take]
    omega
  refine ⟨hlen trg, fun i b hi => ?_, fun trg2 i h1 h2 htake => ?_⟩
  · have hmem : (Transducer.decode (Transducer.decode_step (V + 1) cell) embed init
        trg).getD i (fun _ _ => 0) ∈
        Transducer.decode (Transducer.decode_step (V + 1) cell) embed init trg := by
      have hi2 : i < (Transducer.decode (Transducer.decode_step (V + 1) cell) embed init
          trg).length := by
        rw [hlen trg]; exact hi
      rw [List.getD_eq_getElem _ _ hi2]
      exact List.getElem_mem hi2
    obtain ⟨x, s, hx⟩ := decodeLoop_mem_decode_step (V + 1) cell init _ _ hmem
    rw [hx]
    exact exp_log_softmax_sum (V + 1) (Nat.succ_pos V) ((cell x s).1 b)
  · unfold Transducer.decode
    apply decodeLoop_getD_prefix
    · rw [List.length_map, List.length_take]; omega
    · rw [List.length_map, List.length_take]; omega
    · rw [← List.map_take, ← List.map_take, List.take_take, List.take_take]
      congr 1
      rw [show min (i + 1) (trg.length - 1) = i + 1 by omega,
        show min (i + 1) (trg2.length - 1) = i + 1 by omega]
      exact htake

theorem transducer_decode_spec_witness :
    (Transducer.decode
        (Transducer.decode_step 2 (fun (_ : ℕ → ℕ) (h : ℕ) => ((fun _ _ => (0 : ℝ)), h)))
        (fun s => s) 0 [fun _ => 1, fun _ => 2]).length = 1 ∧
    ∑ v in Finset.range 2,
      Real.exp (((Transducer.decode
          (Transducer.decode_step 2 (fun (_ : ℕ → ℕ) (h : ℕ) => ((fun _ _ => (0 : ℝ)), h)))
          (fun s => s) 0 [fun _ => 1, fun _ => 2]).getD 0 (fun _ _ => 0)) 0 v) = 1 ∧
    (Transducer.decode
        (Transducer.decode_step 2 (fun (_ : ℕ → ℕ) (h : ℕ) => ((fun _ _ => (0 : ℝ)), h)))
        (fun s => s) 0 [fun _ => 1, fun _ => 2]).getD 0 (fun _ _ => 0) =
      (Transducer.decode
        (Transducer.decode_step 2 (fun (_ : ℕ → ℕ) (h : ℕ) => ((fun _ _ => (0 : ℝ)), h)))
        (fun s => s) 0 [fun _ => 1, fun _ => 3]).getD 0 (fun _ _ => 0) := by
  have h := transducer_decode_spec 1
    (fun (_ : ℕ → ℕ) (h : ℕ) => ((fun _ _ => (0 : ℝ)), h)) (fun s => s) 0
    [fun _ => 1, fun _ => 2]
  exact ⟨h.1, h.2.1 0 0 (by decide),
    h.2.2 [fun _ => 1, fun _ => 3] 0 (by decide) (by decide) rfl⟩

/-- Python 3 `round` (round half to even), as used on the final line of
`cal_hs`. -/
noncomputable def pyRound (x : ℝ) : ℤ :=
  if Int.fract x = 1 / 2 then (if 2 ∣ ⌊x⌋ then ⌊x⌋ else ⌊x⌋ + 1) else round x

/-- Embedding of `HardMonoTransducer.cal_hs` (model_clean.py lines 279-290).
`nb_attr` is the instance field assigned in `__init__` (constructor argument
plus one when positive, else zero); the float arithmetic is modelled in ℝ and
Python's banker's rounding as `pyRound`. -/
noncomputable def cal_hs (nb_attr layer : ℕ) (ed od vs hs ht : ℝ) : ℤ :=
  let b0 : ℝ := ed + 2 * hs + 2 + vs / 4
  let b1 : ℝ := if 0 < nb_attr then b0 + ed else b0
  let c0 : ℝ := ed * ed * (nb_attr : ℝ) + ed - od * (od + vs + 1) -
    ht * (2 * hs + 4 * ht + 4 * ed + 1 + 4 * 2)
  let c1 : ℝ := c0 / 4
  let bc : ℝ × ℝ :=
    if 1 < layer then
      ((b1 + ((layer : ℝ) - 1) * 2) / ((layer : ℝ) * 2 - 1),
       (c1 - ((layer : ℝ) - 1) * (2 * ht ^ 2 + 2 * ht)) / ((layer : ℝ) * 2 - 1))
    else (b1, c1)
  pyRound ((Real.sqrt (bc.1 * bc.1 - 4 * bc.2) - bc.1) / 2)

theorem one_le_pyRound {x : ℝ} (hx : 1 / 2 < x) : 1 ≤ pyRound x := by
  unfold pyRound
  by_cases h : Int.fract x = 1 / 2
  · have hfl := Int.floor_add_fract x
    rw [h] at hfl
    have hpos : (0 : ℝ) < (⌊x⌋ : ℝ) := by linarith
    have hposz : (0 : ℤ) < ⌊x⌋ := by exact_mod_cast hpos
    rw [if_pos h]
    by_cases h2 : 2 ∣ ⌊x⌋
    · rw [if_pos h2]; omega
    · rw [if_neg h2]; omega
  · rw [if_neg h, round_eq]
    have h1 : (1 : ℝ) ≤ x + 1 / 2 := by linarith
    exact Int.le_floor.mpr (by exact_mod_cast h1)

theorem cal_hs_root_bound (b c : ℝ) (hb : 0 ≤ b) (hkey : 2 * b + 4 * c + 1 < 0) :
    1 ≤ pyRound ((Real.sqrt (b * b - 4 * c) - b) / 2) := by
  apply one_le_pyRound
  have h1 : (b + 1) ^ 2 < b * b - 4 * c := by nlinarith
  have h2 : b + 1 < Real.sqrt (b * b - 4 * c) :=
    (Real.lt_sqrt (by linarith)).mpr h1
  linarith

/-- C7: `cal_hs` is a pure deterministic function of its inputs - identical
arguments (the spec's reference configuration: embed_dim 5, src_hid_size 5,
trg_hid_size 5, vocab_size 20, out_dim 15, attributes disabled) give the same
integer - and increasing the layer count while holding every other argument
fixed never yields a returned hidden size strictly below 1. -/
theorem cal_hs_spec :
    (∀ L : ℕ, cal_hs 0 L 5 15 20 5 5 = cal_hs 0 L 5 15 20 5 5) ∧
    (∀ L : ℕ, 1 ≤ cal_hs 0 (L + 1) 5 15 20 5 5) := by
  refine ⟨fun L => rfl, fun L => ?_⟩
  cases L with
  | zero =>
    have e : cal_hs 0 1 5 15 20 5 5 =
        pyRound ((Real.sqrt (22 * 22 - 4 * (-830 / 4)) - 22) / 2) := by
      unfold cal_hs; norm_num
    rw [e]
    exact cal_hs_root_bound 22 (-830 / 4) (by norm_num) (by norm_num)
  | succ K =>
    have h2 : 1 < K + 2 := by omega
    have hm : (0 : ℝ) < ((K : ℝ) + 2) * 2 - 1 := by
      have : (0 : ℝ) ≤ (K : ℝ) := Nat.cast_nonneg K
      linarith
    have e : cal_hs 0 (K + 2) 5 15 20 5 5 =
        pyRound ((Real.sqrt
          ((22 + (((K : ℝ) + 2) - 1) * 2) / (((K : ℝ) + 2) * 2 - 1) *
            ((22 + (((K : ℝ) + 2) - 1) * 2) / (((K : ℝ) + 2) * 2 - 1)) -
           4 * ((-830 / 4 - (((K : ℝ) + 2) - 1) * (2 * 5 ^ 2 + 2 * 5)) /
             (((K : ℝ) + 2) * 2 - 1))) -
          (22 + (((K : ℝ) + 2) - 1) * 2) / (((K : ℝ) + 2) * 2 - 1)) / 2) := by
      unfold cal_hs
      norm_num [h2]
    rw [e]
    apply cal_hs_root_bound
    · apply div_nonneg
      · have : (0 : ℝ) ≤ (K : ℝ) := Nat.cast_nonneg K
        linarith
      · linarith
    · have key : 2 * ((22 + (((K : ℝ) + 2) - 1) * 2) / (((K : ℝ) + 2) * 2 - 1)) +
          4 * ((-830 / 4 - (((K : ℝ) + 2) - 1) * (2 * 5 ^ 2 + 2 * 5)) /
            (((K : ℝ) + 2) * 2 - 1)) + 1 =
          (-1019 - 234 * (K : ℝ)) / (((K : ℝ) + 2) * 2 - 1) := by
        field_simp
        ring
      rw [key]
      apply div_neg_of_neg_of_pos
      · have : (0 : ℝ) ≤ (K : ℝ) := Nat.cast_nonneg K
        linarith
      · exact hm
